import Mathlib

/-!
Verification of the retrieval-and-reconstruction core of `doci_bot.py`.

The embedding below translates the Python source into Lean:

* A FAISS document store (`index.docstore._dict.values()`) is a `List Chunk`;
  a loaded category is a `List (List Chunk)` (the `faiss_indexes` list).
* Python strings are sequences of code points; where character-level slicing
  and scanning matters (the `send_long_message` segmenter) we work on
  `List Char`, elsewhere on `String`.
* Scores coming back from the vector search are real numbers in `[0,1]`;
  we model them as `ℚ`, which preserves every comparison the code performs.
* The Telegram handlers mutate a global `user_sessions` dict; we model that
  dict as a function `Nat → Option Session` and each handler as a function
  returning its outcome together with the updated dict.
* External collaborators (`rag_processor.multi_async_search`, the transport)
  are modelled as inputs: the raw hit list a search returns is a parameter
  of `handleQuery`.
-/

/-- A stored document chunk (`doc` in `index.docstore._dict.values()`), with
the metadata fields the core reads: `doc.metadata["chunk_id"]`,
`doc.metadata.get("linked", [])` and `doc.page_content`. -/
structure Chunk where
  chunk_id : String
  page_content : String
  linked : List String
deriving DecidableEq, Repr

/-- One raw search hit as returned by `multi_async_search`: a dict with a
`score`, a `content` and a `metadata` carrying the chunk id. -/
structure Hit where
  score : ℚ
  content : String
  chunk_id : String
deriving DecidableEq, Repr

/-! ## Result ranking (doci_bot.py lines 162-166)

`sorted(raw_results, key=lambda x: x["score"], reverse=True)[:3]`.
Python's `sorted` is a stable sort; with `reverse=True` it orders by
strictly descending key and keeps the original order of equal keys.
`List.mergeSort` is stable, so sorting with `le a b := b.score ≤ a.score`
is the exact counterpart. -/

/-- The sort-and-truncate in `handle_query`: stable sort by descending
score, then keep the first three. -/
def rankHits (raw : List Hit) : List Hit :=
  (raw.mergeSort (fun a b => decide (b.score ≤ a.score))).take 3

/-! ## Sessions and handlers (doci_bot.py lines 24, 77-140, 142-194, 196-235)

A Python session is a dict; after `handle_category` finishes it has keys
`faiss_indexes` and `query_prefix` only, while `handle_query` adds a
`last_results` key.  We model the possibly-absent `last_results` key as an
`Option`. -/

/-- One user's session dict.  `last_results = none` models the
`"last_results"` key being absent from the dict. -/
structure Session where
  faiss_indexes : List (List Chunk)
  queryPref : String
  last_results : Option (List Hit)
deriving Repr

/-- The global `user_sessions` dict, keyed by Telegram user id. -/
def Sessions : Type := Nat → Option Session

/-- Point update of the `user_sessions` dict. -/
def setSession (sessions : Sessions) (uid : Nat) (s : Option Session) : Sessions :=
  fun v => if v = uid then s else sessions v

/-- Outcome of `handle_query` as visible to the user: either the
"choose a category first" rejection, or an answer listing the ranked
results. -/
inductive QueryOutcome where
  | rejectedNoSession
  | answered (results : List Hit)
deriving DecidableEq, Repr

/-- Handler `handle_query` (lines 142-194).  The external search
(`multi_async_search` over `session["faiss_indexes"]`) is modelled by the
parameter `raw`, the list of hits it returns; the handler guard is
`if user_id not in user_sessions`, and on success line 169 stores the
ranked results back into the same session dict. -/
def handleQuery (sessions : Sessions) (uid : Nat) (raw : List Hit) :
    QueryOutcome × Sessions :=
  match sessions uid with
  | none => (.rejectedNoSession, sessions)
  | some s =>
      let sortedResults := rankHits raw
      (.answered sortedResults,
        setSession sessions uid (some { s with last_results := some sortedResults }))

/-- Outcome of `handle_category`, lines 77-140: either the
"категория не найдена" early return (leaving the freshly initialised
session of line 83 in place) or the ready signal of line 135. -/
inductive CategoryOutcome where
  | notFound
  | ready
deriving DecidableEq, Repr

/-- Handler `handle_category` (lines 77-140).  `categoryExists` models the
`os.path.exists` test, `loadOutcomes` the per-path results of
`processor.faiss_loader` (`none` = `load_result["success"]` false), and
`isE5` the `processor.db_metadata.get("is_e5_model", False)` flag.
Line 83 first installs a fresh session that *does* have a `last_results`
key; on success lines 123-131 replace it by a dict with only
`faiss_indexes` and `query_prefix`, so `last_results` ends up absent. -/
def handleCategory (sessions : Sessions) (uid : Nat) (categoryExists : Bool)
    (loadOutcomes : List (Option (List Chunk))) (isE5 : Bool) :
    CategoryOutcome × Sessions :=
  let sessions1 := setSession sessions uid (some ⟨[], "", some []⟩)
  if !categoryExists then
    (.notFound, sessions1)
  else
    let loaded := loadOutcomes.filterMap id
    let pfx := if isE5 then "query: " else ""
    (.ready, setSession sessions1 uid (some ⟨loaded, pfx, none⟩))

/-- Outcome of `handle_result_selection`, lines 196-235: the
"Сессия устарела" stale-session answer, the "Результат не найден"
answer, or the selected hit whose full content gets reconstructed. -/
inductive SelectOutcome where
  | staleSession
  | resultNotFound
  | shown (mainChunk : Hit)
deriving DecidableEq, Repr

/-- Handler `handle_result_selection` (lines 196-235).  Guard one (line 202):
`if not session or "last_results" not in session`; guard two (line 209):
`if result_idx >= len(results)`.  The handler never writes to
`user_sessions`, so the dict is returned unchanged on every path. -/
def handleResultSelection (sessions : Sessions) (uid : Nat) (idx : Nat) :
    SelectOutcome × Sessions :=
  match sessions uid with
  | none => (.staleSession, sessions)
  | some s =>
      match s.last_results with
      | none => (.staleSession, sessions)
      | some results =>
          if h : results.length ≤ idx then
            (.resultNotFound, sessions)
          else
            (.shown (results.get ⟨idx, by omega⟩), sessions)

/-! ## Chunk-graph reconstruction (doci_bot.py lines 237-275)

`assemble_full_content` runs a breadth-first traversal over the linked
chunks: a work queue seeded with the selected hit's chunk id, a `visited`
set, and an index scan
`next((doc for doc in index.docstore._dict.values()
       if doc.metadata["chunk_id"] == chunk_id), None)`
tried on each loaded index in order. -/

/-- The per-id index scan of lines 249-257: first matching document of the
first index that contains the id, `none` when every index misses it. -/
def findChunk (indexes : List (List Chunk)) (cid : String) : Option Chunk :=
  match indexes with
  | [] => none
  | idx :: rest =>
      match idx.find? (fun d => d.chunk_id == cid) with
      | some c => some c
      | none => findChunk rest cid

/-- All chunk ids stored in the loaded indexes (used only as a termination
measure for the traversal: `visited` only ever grows inside this list). -/
def allIds (indexes : List (List Chunk)) : List String :=
  (indexes.map (fun idx => idx.map Chunk.chunk_id)).flatten

theorem findChunk_chunk_id {indexes : List (List Chunk)} {cid : String} {c : Chunk}
    (h : findChunk indexes cid = some c) : c.chunk_id = cid := by
  induction indexes with
  | nil => simp [findChunk] at h
  | cons idx rest ih =>
      simp only [findChunk] at h
      cases hf : idx.find? (fun d => d.chunk_id == cid) with
      | none => rw [hf] at h; exact ih h
      | some c' =>
          rw [hf] at h
          cases h
          simpa using List.find?_some hf

theorem findChunk_mem_allIds {indexes : List (List Chunk)} {cid : String} {c : Chunk}
    (h : findChunk indexes cid = some c) : cid ∈ allIds indexes := by
  induction indexes with
  | nil => simp [findChunk] at h
  | cons idx rest ih =>
      simp only [findChunk] at h
      cases hf : idx.find? (fun d => d.chunk_id == cid) with
      | none =>
          rw [hf] at h
          have := ih h
          simp only [allIds] at this ⊢
          simp [this]
      | some c' =>
          rw [hf] at h
          cases h
          have hmem := List.mem_of_find?_eq_some hf
          have hid : c.chunk_id = cid := by simpa using List.find?_some hf
          simp only [allIds]
          simp only [List.mem_flatten, List.mem_map]
          exact ⟨idx.map Chunk.chunk_id, ⟨idx, List.mem_cons_self idx rest, rfl⟩,
            hid ▸ List.mem_map_of_mem _ hmem⟩

theorem length_filter_le_of_imp (l : List String) (p q : String → Bool)
    (h : ∀ i, p i = true → q i = true) : (l.filter p).length ≤ (l.filter q).length := by
  induction l with
  | nil => simp
  | cons a t ih =>
      by_cases hp : p a = true
      · simp [List.filter_cons, hp, h a hp]; omega
      · simp only [List.filter_cons]
        rw [Bool.not_eq_true] at hp
        rw [hp]
        cases hq : q a <;> simp <;> omega

theorem length_filter_append_lt (l v : List String) (cid : String)
    (hmem : cid ∈ l) (hnot : cid ∉ v) :
    (l.filter (fun i => decide (i ∉ v ++ [cid]))).length <
      (l.filter (fun i => decide (i ∉ v))).length := by
  induction l with
  | nil => simp at hmem
  | cons a t ih =>
      by_cases ha : a = cid
      · subst ha
        have h1 : (decide (a ∉ v ++ [a])) = false := by simp
        have h2 : (decide (a ∉ v)) = true := by simpa using hnot
        simp only [List.filter_cons, h1, h2, if_pos, if_neg, Bool.false_eq_true,
          ite_false, ite_true]
        have hle := length_filter_le_of_imp t (fun i => decide (i ∉ v ++ [a]))
          (fun i => decide (i ∉ v)) (by intro i hi; simp at hi ⊢; exact hi.1)
        simp only [List.length_cons]
        omega
      · have hmem' : cid ∈ t := by
          cases hmem with
          | head => exact absurd rfl ha
          | tail _ h => exact h
        have heq : (decide (a ∉ v ++ [cid])) = (decide (a ∉ v)) := by
          by_cases hav : a ∈ v
          · simp [hav]
          · simp [hav, ha]
        simp only [List.filter_cons, heq]
        cases hq : (decide (a ∉ v)) <;> simp only [Bool.false_eq_true, ite_false, ite_true,
          List.length_cons] <;> have := ih hmem' <;> omega

/-- The BFS loop of lines 243-266.  One call = one iteration of the
`while queue:` loop; `queue.pop(0)`, the `visited` check, the index scan,
and on a hit the `chunks.append` / `visited.add` / `queue.extend` of the
not-yet-visited linked ids. -/
def assembleLoop (indexes : List (List Chunk)) (queue visited : List String)
    (acc : List Chunk) : List Chunk :=
  match queue with
  | [] => acc
  | cid :: rest =>
      if cid ∈ visited then
        assembleLoop indexes rest visited acc
      else
        match h : findChunk indexes cid with
        | none => assembleLoop indexes rest visited acc
        | some c =>
            assembleLoop indexes (rest ++ c.linked.filter (fun l => decide (l ∉ visited)))
              (visited ++ [cid]) (acc ++ [c])
termination_by (((allIds indexes).filter (fun i => decide (i ∉ visited))).length, queue.length)
decreasing_by
  · apply Prod.Lex.right
    simp
  · apply Prod.Lex.right
    simp
  · apply Prod.Lex.left
    exact length_filter_append_lt (allIds indexes) visited cid
      (findChunk_mem_allIds h) (by assumption)

/-- The chunk list collected by the traversal for one seed id. -/
def bfsChunks (indexes : List (List Chunk)) (seedId : String) : List Chunk :=
  assembleLoop indexes [seedId] [] []

/-- Lexicographic code-point comparison on character lists: the order
Python uses for `chunks.sort(key=lambda x: x.metadata["chunk_id"])`.
(Lean's built-in `String` order does not reduce well, so we spell the
same order out on `String.data`.) -/
def charListLe : List Char → List Char → Bool
  | [], _ => true
  | _ :: _, [] => false
  | a :: s, b :: t => if a < b then true else if b < a then false else charListLe s t

/-- The `chunk_id` comparison used by the sort at line 269. -/
def chunkIdLe (a b : Chunk) : Bool :=
  charListLe a.chunk_id.data b.chunk_id.data

theorem charListLe_total : ∀ s t : List Char, charListLe s t || charListLe t s := by
  intro s
  induction s with
  | nil => intro t; simp [charListLe]
  | cons a s ih =>
      intro t
      cases t with
      | nil => simp [charListLe]
      | cons b t =>
          simp only [charListLe]
          rcases lt_trichotomy a b with hab | hab | hab
          · simp [hab]
          · subst hab
            simp only [lt_irrefl, if_neg, ite_false]
            exact ih t
          · simp [hab, not_lt_of_gt hab]

theorem charListLe_trans :
    ∀ s t u : List Char, charListLe s t → charListLe t u → charListLe s u := by
  intro s
  induction s with
  | nil => intro t u _ _; simp [charListLe]
  | cons a s ih =>
      intro t u hst htu
      cases t with
      | nil => simp [charListLe] at hst
      | cons b t =>
          cases u with
          | nil => simp [charListLe] at htu
          | cons c u =>
              simp only [charListLe] at hst htu ⊢
              by_cases h1 : a < b
              · by_cases h2 : b < c
                · simp [lt_trans h1 h2]
                · by_cases h3 : c < b
                  · simp [h2, h3] at htu
                  · have hbc : b = c := le_antisymm (not_lt.mp h3) (not_lt.mp h2)
                    subst hbc
                    simp [h1]
              · by_cases h1' : b < a
                · simp [h1, h1'] at hst
                · have hab : a = b := le_antisymm (not_lt.mp h1') (not_lt.mp h1)
                  subst hab
                  simp only [lt_self_iff_false, if_false] at hst
                  by_cases h2 : a < c
                  · simp [h2]
                  · by_cases h3 : c < a
                    · simp [h2, h3] at htu
                    · have hac : a = c := le_antisymm (not_lt.mp h3) (not_lt.mp h2)
                      subst hac
                      simp only [lt_self_iff_false, if_false] at htu ⊢
                      exact ih t u hst htu

/-- The cleanup applied to each chunk's text before concatenation
(line 273): `chunk.page_content.replace("passage:", "").strip()`. -/
def cleanContent (c : Chunk) : String :=
  (c.page_content.replace "passage:" "").trim

/-- The traversal result after the `chunks.sort(...)` of line 269
(Python `list.sort` is stable; so is `List.mergeSort`). -/
def sortedChunks (indexes : List (List Chunk)) (seedId : String) : List Chunk :=
  (bfsChunks indexes seedId).mergeSort chunkIdLe

/-- Function `assemble_full_content` (lines 237-275): BFS from the selected hit's
`chunk_id`, sort by `chunk_id`, strip the retrieval prefix and whitespace,
join with a blank line. -/
def assemble_full_content (main_chunk : Hit) (faiss_indexes : List (List Chunk)) : String :=
  String.intercalate "\n\n" ((sortedChunks faiss_indexes main_chunk.chunk_id).map cleanContent)

/-- The ids reachable from the seed id by following `linked` edges through
chunks that resolve in some loaded index (spec §4.4's chunk graph). -/
inductive Reachable (indexes : List (List Chunk)) (seed : String) : String → Prop where
  | init : Reachable indexes seed seed
  | step {x y : String} {c : Chunk} : Reachable indexes seed x →
      findChunk indexes x = some c → y ∈ c.linked → Reachable indexes seed y

/-- Fuel-indexed version of the `while queue:` loop, one unit of fuel per
iteration; `none` means the loop was still running when the fuel ran out.
`∃ fuel, ... = some ...` is exactly "the loop terminates". -/
def assembleLoopFuel (indexes : List (List Chunk)) :
    Nat → List String → List String → List Chunk → Option (List Chunk)
  | _, [], _, acc => some acc
  | 0, _ :: _, _, _ => none
  | fuel + 1, cid :: rest, visited, acc =>
      if cid ∈ visited then
        assembleLoopFuel indexes fuel rest visited acc
      else
        match findChunk indexes cid with
        | none => assembleLoopFuel indexes fuel rest visited acc
        | some c =>
            assembleLoopFuel indexes fuel
              (rest ++ c.linked.filter (fun l => decide (l ∉ visited)))
              (visited ++ [cid]) (acc ++ [c])

theorem assembleLoop_nil (indexes : List (List Chunk)) (visited : List String)
    (acc : List Chunk) : assembleLoop indexes [] visited acc = acc := by
  rw [assembleLoop]

theorem assembleLoop_visited {indexes : List (List Chunk)} {cid : String}
    {rest visited : List String} {acc : List Chunk} (hmem : cid ∈ visited) :
    assembleLoop indexes (cid :: rest) visited acc =
      assembleLoop indexes rest visited acc := by
  rw [assembleLoop]
  rw [if_pos hmem]

theorem assembleLoop_miss {indexes : List (List Chunk)} {cid : String}
    {rest visited : List String} {acc : List Chunk} (hmem : cid ∉ visited)
    (hfind : findChunk indexes cid = none) :
    assembleLoop indexes (cid :: rest) visited acc =
      assembleLoop indexes rest visited acc := by
  rw [assembleLoop]
  rw [if_neg hmem]
  split
  · rfl
  · next c heq => rw [heq] at hfind; cases hfind

theorem assembleLoop_hit {indexes : List (List Chunk)} {cid : String}
    {rest visited : List String} {acc : List Chunk} {c : Chunk} (hmem : cid ∉ visited)
    (hfind : findChunk indexes cid = some c) :
    assembleLoop indexes (cid :: rest) visited acc =
      assembleLoop indexes (rest ++ c.linked.filter (fun l => decide (l ∉ visited)))
        (visited ++ [cid]) (acc ++ [c]) := by
  rw [assembleLoop]
  rw [if_neg hmem]
  split
  · next heq => rw [heq] at hfind; cases hfind
  · next c' heq =>
      rw [heq] at hfind
      injection hfind with h3
      subst h3
      rfl

theorem assembleLoopFuel_terminates (indexes : List (List Chunk)) :
    ∀ queue visited acc, ∃ fuel,
      assembleLoopFuel indexes fuel queue visited acc =
        some (assembleLoop indexes queue visited acc) := by
  intro queue visited acc
  induction queue, visited, acc using assembleLoop.induct indexes with
  | case1 visited acc =>
      refine ⟨0, ?_⟩
      rw [assembleLoop_nil]
      rfl
  | case2 visited acc cid rest hmem ih =>
      obtain ⟨n, hn⟩ := ih
      refine ⟨n + 1, ?_⟩
      rw [assembleLoop_visited hmem]
      simp only [assembleLoopFuel, if_pos hmem]
      exact hn
  | case3 visited acc cid rest hmem hfind ih =>
      obtain ⟨n, hn⟩ := ih
      refine ⟨n + 1, ?_⟩
      rw [assembleLoop_miss hmem hfind]
      simp only [assembleLoopFuel, if_neg hmem, hfind]
      exact hn
  | case4 visited acc cid rest hmem c hfind ih =>
      obtain ⟨n, hn⟩ := ih
      refine ⟨n + 1, ?_⟩
      rw [assembleLoop_hit hmem hfind]
      simp only [assembleLoopFuel, if_neg hmem, hfind]
      exact hn

theorem assembleLoop_master (indexes : List (List Chunk)) (seed : String) :
    ∀ queue visited acc,
      (∀ x ∈ visited, Reachable indexes seed x) →
      (∀ x ∈ queue, Reachable indexes seed x) →
      (∀ x ∈ visited, ∀ c, findChunk indexes x = some c →
        ∀ l ∈ c.linked, l ∈ visited ∨ l ∈ queue ∨ findChunk indexes l = none) →
      (seed ∈ visited ∨ seed ∈ queue ∨ findChunk indexes seed = none) →
      (acc.map Chunk.chunk_id = visited) →
      visited.Nodup →
      (∀ c ∈ acc, findChunk indexes c.chunk_id = some c) →
      ((assembleLoop indexes queue visited acc).map Chunk.chunk_id).Nodup ∧
      (∀ c ∈ assembleLoop indexes queue visited acc,
        Reachable indexes seed c.chunk_id ∧ findChunk indexes c.chunk_id = some c) ∧
      (∀ x, Reachable indexes seed x → ∀ c, findChunk indexes x = some c →
        c ∈ assembleLoop indexes queue visited acc) := by
  intro queue visited acc
  induction queue, visited, acc using assembleLoop.induct indexes with
  | case1 visited acc =>
      intro H1 H2 H3 H4 H5 H6 H7
      rw [assembleLoop_nil]
      have key : ∀ x, Reachable indexes seed x →
          ∀ c, findChunk indexes x = some c → x ∈ visited := by
        intro x hx
        induction hx with
        | init =>
            intro c hc
            rcases H4 with h | h | h
            · exact h
            · simp at h
            · rw [hc] at h; cases h
        | step hr hf hm ihx =>
            intro c' hc'
            rename_i x y cm
            have hxv : x ∈ visited := ihx _ hf
            rcases H3 x hxv _ hf y hm with h | h | h
            · exact h
            · simp at h
            · rw [hc'] at h; cases h
      refine ⟨H5 ▸ H6, ?_, ?_⟩
      · intro c hc
        have hidm : c.chunk_id ∈ visited := H5 ▸ List.mem_map_of_mem _ hc
        exact ⟨H1 _ hidm, H7 c hc⟩
      · intro x hx c hc
        have hxv : x ∈ visited := key x hx c hc
        rw [← H5] at hxv
        obtain ⟨c', hc'mem, hc'id⟩ := List.mem_map.mp hxv
        have : findChunk indexes x = some c' := hc'id ▸ H7 c' hc'mem
        rw [hc] at this
        injection this with h
        exact h ▸ hc'mem
  | case2 visited acc cid rest hmem ih =>
      intro H1 H2 H3 H4 H5 H6 H7
      rw [assembleLoop_visited hmem]
      refine ih H1 (fun x hx => H2 x (List.mem_cons_of_mem _ hx)) ?_ ?_ H5 H6 H7
      · intro x hx c hc l hl
        rcases H3 x hx c hc l hl with h | h | h
        · exact Or.inl h
        · rcases List.mem_cons.mp h with rfl | h'
          · exact Or.inl hmem
          · exact Or.inr (Or.inl h')
        · exact Or.inr (Or.inr h)
      · rcases H4 with h | h | h
        · exact Or.inl h
        · rcases List.mem_cons.mp h with rfl | h'
          · exact Or.inl hmem
          · exact Or.inr (Or.inl h')
        · exact Or.inr (Or.inr h)
  | case3 visited acc cid rest hmem hfind ih =>
      intro H1 H2 H3 H4 H5 H6 H7
      rw [assembleLoop_miss hmem hfind]
      refine ih H1 (fun x hx => H2 x (List.mem_cons_of_mem _ hx)) ?_ ?_ H5 H6 H7
      · intro x hx c hc l hl
        rcases H3 x hx c hc l hl with h | h | h
        · exact Or.inl h
        · rcases List.mem_cons.mp h with rfl | h'
          · exact Or.inr (Or.inr hfind)
          · exact Or.inr (Or.inl h')
        · exact Or.inr (Or.inr h)
      · rcases H4 with h | h | h
        · exact Or.inl h
        · rcases List.mem_cons.mp h with rfl | h'
          · exact Or.inr (Or.inr hfind)
          · exact Or.inr (Or.inl h')
        · exact Or.inr (Or.inr h)
  | case4 visited acc cid rest hmem c hfind ih =>
      intro H1 H2 H3 H4 H5 H6 H7
      rw [assembleLoop_hit hmem hfind]
      have hcid : c.chunk_id = cid := findChunk_chunk_id hfind
      have hReachCid : Reachable indexes seed cid := H2 cid (List.mem_cons_self _ _)
      refine ih ?_ ?_ ?_ ?_ ?_ ?_ ?_
      · intro x hx
        rcases List.mem_append.mp hx with h | h
        · exact H1 x h
        · simp only [List.mem_singleton] at h
          exact h ▸ hReachCid
      · intro x hx
        rcases List.mem_append.mp hx with h | h
        · exact H2 x (List.mem_cons_of_mem _ h)
        · have hx' : x ∈ c.linked := List.mem_of_mem_filter h
          exact Reachable.step hReachCid hfind hx'
      · intro x hx c' hc' l hl
        rcases List.mem_append.mp hx with hxv | hxc
        · rcases H3 x hxv c' hc' l hl with h | h | h
          · exact Or.inl (List.mem_append_left _ h)
          · rcases List.mem_cons.mp h with rfl | h'
            · exact Or.inl (List.mem_append_right _ (by simp))
            · exact Or.inr (Or.inl (List.mem_append_left _ h'))
          · exact Or.inr (Or.inr h)
        · simp only [List.mem_singleton] at hxc
          subst hxc
          rw [hfind] at hc'
          injection hc' with hc'eq
          subst hc'eq
          by_cases hlv : l ∈ visited
          · exact Or.inl (List.mem_append_left _ hlv)
          · refine Or.inr (Or.inl (List.mem_append_right _ ?_))
            exact List.mem_filter.mpr ⟨hl, by simpa using hlv⟩
      · rcases H4 with h | h | h
        · exact Or.inl (List.mem_append_left _ h)
        · rcases List.mem_cons.mp h with rfl | h'
          · exact Or.inl (List.mem_append_right _ (by simp))
          · exact Or.inr (Or.inl (List.mem_append_left _ h'))
        · exact Or.inr (Or.inr h)
      · simp [H5, hcid]
      · rw [List.nodup_append]
        exact ⟨H6, by simp, by
          intro x hx hx'
          simp only [List.mem_singleton] at hx'
          subst hx'
          exact hmem hx⟩
      · intro c' hc'
        rcases List.mem_append.mp hc' with h | h
        · exact H7 c' h
        · simp only [List.mem_singleton] at h
          subst h
          rw [hcid]
          exact hfind

/-! ## Bounded text segmenter (doci_bot.py lines 292-324)

`send_long_message` splits `text` into `parts` in a `while text:` loop and
then sends each part with a `"📖 Часть {i}/{total}\n\n"` header when there
is more than one part.  Python strings are sequences of code points, so the
segmenter is embedded on `List Char`; `len` is `List.length`, slicing
`text[:n]` is `pySliceTo`, `str.rfind` is `pyRfindChar`/`pyRfindSub`. -/

/-- The header template whose length is reserved per part
(line 304): `len("📖 Часть X/X\n\n") = 13` code points. -/
def headerPattern : List Char := "📖 Часть X/X\n\n".data

/-- Python slicing `s[:n]` for an `int` bound `n`: a non-negative bound
takes a prefix (clamped to the length), a negative bound counts from the
end (clamped to the empty prefix). -/
def pySliceTo (s : List Char) (n : Int) : List Char :=
  if n < 0 then s.take (s.length - n.natAbs) else s.take n.toNat

def rfindCharAux (c : Char) : List Char → Nat → Int → Int
  | [], _, best => best
  | x :: xs, i, best => rfindCharAux c xs (i + 1) (if x = c then (i : Int) else best)

/-- Python `s.rfind(c)` for a single character: the largest index holding
`c`, or `-1` when there is none. -/
def pyRfindChar (s : List Char) (c : Char) : Int :=
  rfindCharAux c s 0 (-1)

def rfindSubAux (pat : List Char) : List Char → Nat → Int → Int
  | [], _, best => best
  | x :: xs, i, best =>
      rfindSubAux pat xs (i + 1) (if pat.isPrefixOf (x :: xs) then (i : Int) else best)

/-- Python `s.rfind(sub)` for a non-empty needle: the largest index where
`sub` starts, or `-1`. -/
def pyRfindSub (s pat : List Char) : Int :=
  rfindSubAux pat s 0 (-1)

/-- The break search of lines 308-312:
`max(chunk.rfind('\n'), chunk.rfind(' '), chunk.rfind('. '))`. -/
def lastBreakOf (chunk : List Char) : Int :=
  max (max (pyRfindChar chunk '\n') (pyRfindChar chunk ' ')) (pyRfindSub chunk ". ".data)

/-- The chunk carved off the front of the remaining text by one iteration
of the loop (lines 303-315): `text[:available_size]`, shortened to
`chunk[:last_break + 1]` when a break was found and the chunk is longer
than 100 characters.  `firstPart` tells whether `parts` is still empty, in
which case line 304 reserves no header space. -/
def chunkOf (maxLength : Nat) (firstPart : Bool) (text : List Char) : List Char :=
  let availableSize : Int :=
    (maxLength : Int) - (if firstPart then 0 else (headerPattern.length : Int))
  let chunk0 := pySliceTo text availableSize
  if lastBreakOf chunk0 ≠ -1 ∧ 100 < chunk0.length then
    pySliceTo chunk0 (lastBreakOf chunk0 + 1)
  else chunk0

/-- One-iteration-per-fuel-unit embedding of the `while text:` loop of
lines 302-318.  `none` means the loop was still running when the fuel ran
out, so `∃ fuel, ... = some parts` states that the loop terminates. -/
def sendLoopFuel (maxLength : Nat) : Nat → List Char → List (List Char) →
    Option (List (List Char))
  | _, [], parts => some parts
  | 0, _ :: _, _ => none
  | fuel + 1, text, parts =>
      let chunk := chunkOf maxLength parts.isEmpty text
      sendLoopFuel maxLength fuel (text.drop chunk.length) (parts ++ [chunk])

/-- The part list `send_long_message` builds for a given `text` and
`max_length`, with the loop's own fuel bound `text.length` (each iteration
consumes at least one character whenever `max_length > 13`). -/
def segmentParts (maxLength : Nat) (text : List Char) : Option (List (List Char)) :=
  sendLoopFuel maxLength text.length text []

/-- The header `f"📖 Часть {i}/{total}\n\n"` of line 323. -/
def headerChars (i total : Nat) : List Char :=
  "📖 Часть ".data ++ (toString i).data ++ "/".data ++ (toString total).data ++ "\n\n".data

/-- The send loop of lines 320-324: each part is prefixed by its header
when there is more than one part, and sent bare otherwise. -/
def renderMessages (parts : List (List Char)) : List (List Char) :=
  parts.enum.map (fun p =>
    (if 1 < parts.length then headerChars (p.1 + 1) parts.length else []) ++ p.2)

theorem take_append_drop_length (l : List Char) (k : Nat) :
    l.take k ++ l.drop (l.take k).length = l := by
  rw [List.length_take]
  rcases Nat.le_total k l.length with h | h
  · rw [Nat.min_eq_left h, List.take_append_drop]
  · rw [Nat.min_eq_right h, List.take_of_length_le h, List.drop_length, List.append_nil]

theorem rfindCharAux_ge_neg_one (c : Char) :
    ∀ (s : List Char) (i : Nat) (best : Int), -1 ≤ best → -1 ≤ rfindCharAux c s i best := by
  intro s
  induction s with
  | nil => intro i best h; exact h
  | cons x xs ih =>
      intro i best h
      simp only [rfindCharAux]
      apply ih
      by_cases hx : x = c
      · simp [hx]; omega
      · simpa [hx] using h

theorem rfindSubAux_ge_neg_one (pat : List Char) :
    ∀ (s : List Char) (i : Nat) (best : Int), -1 ≤ best → -1 ≤ rfindSubAux pat s i best := by
  intro s
  induction s with
  | nil => intro i best h; exact h
  | cons x xs ih =>
      intro i best h
      simp only [rfindSubAux]
      apply ih
      by_cases hx : pat.isPrefixOf (x :: xs)
      · simp [hx]; omega
      · simpa [hx] using h

theorem lastBreakOf_ge_neg_one (chunk : List Char) : -1 ≤ lastBreakOf chunk := by
  have h1 := rfindSubAux_ge_neg_one (". ".data) chunk 0 (-1) (le_refl _)
  simp only [lastBreakOf, pyRfindSub]
  exact le_trans h1 (le_max_right _ _)

theorem pySliceTo_is_take (s : List Char) (n : Int) : ∃ k, pySliceTo s n = s.take k := by
  unfold pySliceTo
  split
  · exact ⟨_, rfl⟩
  · exact ⟨_, rfl⟩

theorem headerPattern_length : headerPattern.length = 13 := by decide

theorem chunkOf_is_take (maxLength : Nat) (firstPart : Bool) (text : List Char) :
    ∃ k, chunkOf maxLength firstPart text = text.take k := by
  simp only [chunkOf]
  obtain ⟨k0, hk0⟩ := pySliceTo_is_take text
    ((maxLength : Int) - (if firstPart then 0 else (headerPattern.length : Int)))
  rw [hk0]
  split
  · obtain ⟨k1, hk1⟩ := pySliceTo_is_take (text.take k0) (lastBreakOf (text.take k0) + 1)
    rw [hk1, List.take_take]
    exact ⟨_, rfl⟩
  · exact ⟨k0, rfl⟩

theorem take_ne_nil_of (text : List Char) (k : Nat) (hk : 1 ≤ k) (htext : text ≠ []) :
    text.take k ≠ [] := by
  rw [Ne, List.take_eq_nil_iff]
  push_neg
  constructor
  · omega
  · exact htext

theorem chunkAux_ne_nil (text : List Char) (a : Int) (ha : 1 ≤ a) (htext : text ≠ []) :
    (if lastBreakOf (pySliceTo text a) ≠ -1 ∧ 100 < (pySliceTo text a).length then
      pySliceTo (pySliceTo text a) (lastBreakOf (pySliceTo text a) + 1)
    else pySliceTo text a) ≠ [] := by
  have hnot : ¬ a < 0 := by omega
  simp only [pySliceTo, if_neg hnot]
  have h1 : 1 ≤ a.toNat := by omega
  have hchunk0 := take_ne_nil_of text a.toNat h1 htext
  split
  · next hcond =>
      have hge := lastBreakOf_ge_neg_one (text.take a.toNat)
      have hne := hcond.1
      rw [if_neg (by omega)]
      exact take_ne_nil_of _ _ (by omega) hchunk0
  · exact hchunk0

theorem chunkOf_ne_nil (maxLength : Nat) (firstPart : Bool) (text : List Char)
    (hm : 13 < maxLength) (htext : text ≠ []) :
    chunkOf maxLength firstPart text ≠ [] := by
  simp only [chunkOf]
  refine chunkAux_ne_nil text _ ?_ htext
  rw [headerPattern_length]
  cases firstPart <;> simp <;> omega

theorem sendLoopFuel_nil (maxLength : Nat) (fuel : Nat) (parts : List (List Char)) :
    sendLoopFuel maxLength fuel [] parts = some parts := by
  cases fuel <;> rfl

theorem sendLoopFuel_complete (maxLength : Nat) (hm : 13 < maxLength) :
    ∀ (fuel : Nat) (text : List Char) (parts : List (List Char)), text.length ≤ fuel →
      ∃ ps, sendLoopFuel maxLength fuel text parts = some ps ∧
        ps.flatten = parts.flatten ++ text := by
  intro fuel
  induction fuel with
  | zero =>
      intro text parts h
      cases text with
      | nil => exact ⟨parts, rfl, by simp⟩
      | cons a t => simp at h
  | succ n ih =>
      intro text parts h
      cases text with
      | nil => exact ⟨parts, rfl, by simp⟩
      | cons ch rest =>
          have hne : (ch :: rest : List Char) ≠ [] := by simp
          have hcne := chunkOf_ne_nil maxLength parts.isEmpty (ch :: rest) hm hne
          have hclen : 1 ≤ (chunkOf maxLength parts.isEmpty (ch :: rest)).length :=
            List.length_pos.mpr hcne
          obtain ⟨k, hk⟩ := chunkOf_is_take maxLength parts.isEmpty (ch :: rest)
          have hprefix : chunkOf maxLength parts.isEmpty (ch :: rest) ++
              (ch :: rest).drop (chunkOf maxLength parts.isEmpty (ch :: rest)).length =
                ch :: rest := by
            rw [hk]
            exact take_append_drop_length _ k
          have hdroplen :
              ((ch :: rest).drop (chunkOf maxLength parts.isEmpty (ch :: rest)).length).length
                ≤ n := by
            rw [List.length_drop]
            simp only [List.length_cons] at h ⊢
            omega
          obtain ⟨ps, hps, hflat⟩ :=
            ih ((ch :: rest).drop (chunkOf maxLength parts.isEmpty (ch :: rest)).length)
              (parts ++ [chunkOf maxLength parts.isEmpty (ch :: rest)]) hdroplen
          refine ⟨ps, ?_, ?_⟩
          · simpa only [sendLoopFuel] using hps
          · rw [hflat, List.flatten_append, List.append_assoc]
            congr 1
            simpa using hprefix

theorem chunkOf_first_eq_self (maxLength : Nat) (text : List Char)
    (hlen : text.length ≤ maxLength)
    (hshort : text.length ≤ 100 ∨ lastBreakOf text = -1) :
    chunkOf maxLength true text = text := by
  simp only [chunkOf, eq_self_iff_true, if_true]
  have h0 : pySliceTo text ((maxLength : Int) - 0) = text := by
    rw [pySliceTo, if_neg (by omega)]
    have ht : ((maxLength : Int) - 0).toNat = maxLength := by omega
    rw [ht]
    exact List.take_of_length_le hlen
  rw [h0]
  rcases hshort with h | h
  · rw [if_neg]
    rintro ⟨-, h100⟩
    omega
  · rw [if_neg]
    rintro ⟨hne, -⟩
    exact hne h

theorem segmentParts_single (maxLength : Nat) (text : List Char)
    (hne : text ≠ []) (hlen : text.length + 13 < maxLength)
    (hshort : text.length ≤ 100 ∨ lastBreakOf text = -1) :
    segmentParts maxLength text = some [text] := by
  unfold segmentParts
  cases text with
  | nil => exact absurd rfl hne
  | cons ch rest =>
      have hchunk : chunkOf maxLength true (ch :: rest) = ch :: rest :=
        chunkOf_first_eq_self maxLength (ch :: rest) (by omega) hshort
      show sendLoopFuel maxLength (rest.length + 1) (ch :: rest) [] = some [ch :: rest]
      simp only [sendLoopFuel, List.isEmpty_nil, hchunk, List.drop_length,
        List.nil_append]

/-! ## Claims -/

/-- Two hits carrying the same `chunk_id` with different scores: the input
for the C1 counterexample. -/
def hitA : Hit := ⟨9/10, "text one", "doc1_p1"⟩

def hitB : Hit := ⟨4/5, "text two", "doc1_p1"⟩

/-- Claim C1 counterexample: `handle_query`'s ranking step performs no
deduplication — two hits with the same `chunk_id` both survive into the
result set, so the claimed "no two entries with the same chunk_id" is
false. -/
theorem C1_no_dedup_counterexample :
    rankHits [hitA, hitB] = [hitA, hitB] ∧
    ¬ ((rankHits [hitA, hitB]).map Hit.chunk_id).Nodup := by
  have h : rankHits [hitA, hitB] = [hitA, hitB] := by
    unfold rankHits hitA hitB
    norm_num [List.mergeSort, List.merge]
  refine ⟨h, ?_⟩
  rw [h]
  simp [hitA, hitB]

/-- Claim C1 (amended): for every sequence of scored hits, the ranking step
of `handle_query` returns a result set sorted by descending score (ties in
first-seen order, since the sort is stable) of length at most 3; no
deduplication by `chunk_id` is performed. -/
theorem C1_rank_sorted_truncated (raw : List Hit) :
    List.Pairwise (fun a b : Hit => b.score ≤ a.score) (rankHits raw) ∧
    (rankHits raw).length ≤ 3 := by
  constructor
  · have hs : (raw.mergeSort (fun a b : Hit => decide (b.score ≤ a.score))).Pairwise
        (fun a b : Hit => decide (b.score ≤ a.score)) :=
      List.sorted_mergeSort
        (fun a b c h1 h2 => by
          simp only [decide_eq_true_eq] at h1 h2 ⊢
          exact le_trans h2 h1)
        (fun a b => by
          simp only [Bool.or_eq_true, decide_eq_true_eq]
          exact le_total b.score a.score)
        raw
    have hsub : List.Sublist (rankHits raw)
        (raw.mergeSort (fun a b : Hit => decide (b.score ≤ a.score))) :=
      List.take_sublist _ _
    exact (hs.sublist hsub).imp (by simp)
  · simpa [rankHits] using List.length_take_le 3
      (raw.mergeSort (fun a b : Hit => decide (b.score ≤ a.score)))

/-- A session whose category produced no loadable `.faiss` index: the
index list is empty. -/
def emptyIndexSession : Session := ⟨[], "", none⟩

def sessionsWithEmptyIndexes : Sessions :=
  fun v => if v = 0 then some emptyIndexSession else none

/-- Claim C3 counterexample: `handle_query` accepts a query for a user
whose session holds an empty index list — the search is run against zero
indexes, and no state-machine check exists. -/
theorem C3_empty_indexes_counterexample :
    sessionsWithEmptyIndexes 0 = some emptyIndexSession ∧
    emptyIndexSession.faiss_indexes = [] ∧
    (handleQuery sessionsWithEmptyIndexes 0 []).1 = QueryOutcome.answered [] := by
  refine ⟨rfl, rfl, ?_⟩
  simp [handleQuery, sessionsWithEmptyIndexes, rankHits, emptyIndexSession]

/-- Claim C3 (amended): the only gate `handle_query` applies is session
existence — a query is rejected exactly when the user has no session at
all, regardless of the session's index list or any conversational state. -/
theorem C3_query_gate (sessions : Sessions) (uid : Nat) (raw : List Hit) :
    (handleQuery sessions uid raw).1 = QueryOutcome.rejectedNoSession ↔
      sessions uid = none := by
  cases h : sessions uid with
  | none => simp [handleQuery, h]
  | some s => simp [handleQuery, h]

/-- Claim C4: for every finite chunk graph — cycles and self-links
included — the reconstruction loop of `assemble_full_content` terminates
(the fuelled loop halts within some finite number of iterations with the
same result), and each chunk id is appended to the result at most once. -/
theorem C4_reconstruct_terminates_no_duplicates (indexes : List (List Chunk))
    (seedId : String) :
    (∃ fuel, assembleLoopFuel indexes fuel [seedId] [] [] =
      some (bfsChunks indexes seedId)) ∧
    ((bfsChunks indexes seedId).map Chunk.chunk_id).Nodup := by
  refine ⟨assembleLoopFuel_terminates indexes [seedId] [] [], ?_⟩
  have h := assembleLoop_master indexes seedId [seedId] [] []
    (by simp)
    (by
      intro x hx
      simp only [List.mem_singleton] at hx
      exact hx ▸ Reachable.init)
    (by simp)
    (Or.inr (Or.inl (List.mem_singleton_self _)))
    rfl
    List.nodup_nil
    (by simp)
  exact h.1

/-- Claim C5: the reconstructed document consists of exactly the chunks
whose id is reachable from the seed and resolvable in some loaded index
(ids missing from every index are dropped silently), sorted ascending by
`chunk_id`, and its text is those chunks' contents with the `passage:`
retrieval prefix removed and whitespace trimmed, joined by a blank line. -/
theorem C5_assemble_content_correct (faiss_indexes : List (List Chunk))
    (main_chunk : Hit) :
    (∀ c : Chunk, c ∈ sortedChunks faiss_indexes main_chunk.chunk_id ↔
      (Reachable faiss_indexes main_chunk.chunk_id c.chunk_id ∧
        findChunk faiss_indexes c.chunk_id = some c)) ∧
    List.Pairwise (fun a b : Chunk => chunkIdLe a b = true)
      (sortedChunks faiss_indexes main_chunk.chunk_id) ∧
    ((sortedChunks faiss_indexes main_chunk.chunk_id).map Chunk.chunk_id).Nodup ∧
    assemble_full_content main_chunk faiss_indexes =
      String.intercalate "\n\n"
        ((sortedChunks faiss_indexes main_chunk.chunk_id).map cleanContent) := by
  obtain ⟨hnodup, hsound, hcomplete⟩ := assembleLoop_master faiss_indexes
    main_chunk.chunk_id [main_chunk.chunk_id] [] []
    (by simp)
    (by
      intro x hx
      simp only [List.mem_singleton] at hx
      exact hx ▸ Reachable.init)
    (by simp)
    (Or.inr (Or.inl (List.mem_singleton_self _)))
    rfl
    List.nodup_nil
    (by simp)
  refine ⟨?_, ?_, ?_, rfl⟩
  · intro c
    constructor
    · intro hc
      exact hsound c (List.mem_mergeSort.mp hc)
    · rintro ⟨hre, hfi⟩
      exact List.mem_mergeSort.mpr (hcomplete _ hre c hfi)
  · have htrans : ∀ a b c : Chunk, chunkIdLe a b → chunkIdLe b c → chunkIdLe a c :=
      fun a b c h1 h2 => charListLe_trans _ _ _ h1 h2
    have htotal : ∀ a b : Chunk, (chunkIdLe a b || chunkIdLe b a) = true :=
      fun a b => charListLe_total _ _
    have hsorted : List.Pairwise (fun a b : Chunk => chunkIdLe a b = true)
        ((bfsChunks faiss_indexes main_chunk.chunk_id).mergeSort chunkIdLe) :=
      List.sorted_mergeSort htrans htotal (bfsChunks faiss_indexes main_chunk.chunk_id)
    exact hsorted
  · exact ((List.mergeSort_perm (bfsChunks faiss_indexes main_chunk.chunk_id)
      chunkIdLe).map Chunk.chunk_id).nodup_iff.mpr hnodup

set_option maxRecDepth 40000

/-- A text of 121 identical characters with no break points: the failing
input for claim C2 (with `max_length = 120`). -/
def overflowText : List Char := List.replicate 121 'a'

/-- Claim C2 (code bug, evaluated at the failing input): line 304 reserves
header space only when `parts` is non-empty, so the *first* part of a
multi-part message may use the full `max_length`; once its
`"📖 Часть 1/2\n\n"` header is prepended the sent message exceeds the
limit, contradicting the function's own "точным соблюдением лимита"
docstring.  At `max_length = 120` and a 121-character break-free text the
first part has 120 characters, `120 + 13 > 120`, and the first rendered
message is 133 > 120 characters long. -/
theorem C2_first_part_exceeds_limit :
    segmentParts 120 overflowText = some [List.replicate 120 'a', ['a']] ∧
    ¬ ((List.replicate 120 'a').length + headerPattern.length ≤ 120) ∧
    (∃ m ∈ renderMessages [List.replicate 120 'a', ['a']], 120 < m.length) := by
  refine ⟨by decide, by decide,
    ⟨headerChars 1 2 ++ List.replicate 120 'a', by decide, by decide⟩⟩

/-- A 151-character text (120 `a`s, one space, 30 `b`s), far below the
single-part bound `3000 - 13`: the counterexample input for claim C6. -/
def shortText : List Char := List.replicate 120 'a' ++ ' ' :: List.replicate 30 'b'

/-- Claim C6 counterexample: an input strictly shorter than
`max_part_size - reserved_header_size` is nevertheless split into two
parts, because the break-at-last-space rule of lines 308-315 fires
whenever the remaining text is longer than 100 characters and contains a
break — even when the whole text already fits. -/
theorem C6_short_input_split_counterexample :
    shortText.length + 13 < 3000 ∧
    segmentParts 3000 shortText =
      some [List.replicate 120 'a' ++ [' '], List.replicate 30 'b'] ∧
    segmentParts 3000 shortText ≠ some [shortText] := by
  refine ⟨by decide, by decide, by decide⟩

/-- Claim C6 (amended): a nonempty input strictly shorter than
`max_part_size - reserved_header_size` which is moreover at most 100
characters long *or* free of break characters yields exactly one part,
equal to the input unchanged, and the single part is sent without a
header. -/
theorem C6_single_part (maxLength : Nat) (text : List Char)
    (hne : text ≠ []) (hlen : text.length + 13 < maxLength)
    (hshort : text.length ≤ 100 ∨ lastBreakOf text = -1) :
    segmentParts maxLength text = some [text] ∧ renderMessages [text] = [text] :=
  ⟨segmentParts_single maxLength text hne hlen hshort, rfl⟩

/-- Witness for C6 at a concrete input: `"abc"` with `max_length = 20`. -/
theorem C6_single_part_witness :
    segmentParts 20 "abc".data = some ["abc".data] ∧
    renderMessages ["abc".data] = ["abc".data] :=
  C6_single_part 20 "abc".data (by decide) (by decide) (Or.inl (by decide))

/-- Claim C7: for every input text (and any `max_length` above the
13-character header reservation, which the call sites 3000 and 4096 both
satisfy), the loop terminates and concatenating the produced parts —
headers ignored — gives back the original text exactly: no character is
ever dropped, the chosen break character included.  The empty input
yields an empty part sequence. -/
theorem C7_concat_reconstructs (maxLength : Nat) (text : List Char)
    (hm : 13 < maxLength) :
    (∃ ps, segmentParts maxLength text = some ps ∧ ps.flatten = text) ∧
    segmentParts maxLength [] = some [] := by
  constructor
  · obtain ⟨ps, h1, h2⟩ := sendLoopFuel_complete maxLength hm text.length text [] (le_refl _)
    exact ⟨ps, h1, by simpa using h2⟩
  · rfl

/-- Witness for C7 at a concrete input: `"ab cd"` with `max_length = 50`. -/
theorem C7_concat_reconstructs_witness :
    (∃ ps, segmentParts 50 "ab cd".data = some ps ∧ ps.flatten = "ab cd".data) ∧
    segmentParts 50 [] = some [] :=
  C7_concat_reconstructs 50 "ab cd".data (by decide)

/-- A session dict whose `last_results` key is present but holds an empty
list, at user id 0. -/
def emptyResultsSessions : Sessions :=
  fun v => if v = 0 then some ⟨[], "", some []⟩ else none

/-- Claim C8 counterexample: when `last_results` is present but *empty*,
`handle_result_selection` answers "Результат не найден"
(result-not-found), not the stale-session error the claim asserts — the
stale branch only checks that the key exists, and any requested index is
out of bounds of an empty list. -/
theorem C8_empty_results_counterexample :
    (handleResultSelection emptyResultsSessions 0 0).1 = SelectOutcome.resultNotFound ∧
    (handleResultSelection emptyResultsSessions 0 0).1 ≠ SelectOutcome.staleSession := by
  have h1 : (handleResultSelection emptyResultsSessions 0 0).1 =
      SelectOutcome.resultNotFound := rfl
  refine ⟨h1, ?_⟩
  rw [h1]
  intro h
  simp at h

/-- Claim C8 (amended): `handle_result_selection` fails with the
stale-session error exactly when the user has no session or the session
lacks the `last_results` key; it fails with the result-not-found error
whenever the requested index is out of bounds of the stored list (an
empty-but-present list included); and on every path — failures and
success alike — the session store is left unchanged and no reconstruction
output is produced on failure. -/
theorem C8_selection_guards (sessions : Sessions) (uid : Nat) (idx : Nat) :
    ((sessions uid = none ∨ ∃ s, sessions uid = some s ∧ s.last_results = none) →
      handleResultSelection sessions uid idx = (SelectOutcome.staleSession, sessions)) ∧
    (∀ s results, sessions uid = some s → s.last_results = some results →
      results.length ≤ idx →
      handleResultSelection sessions uid idx = (SelectOutcome.resultNotFound, sessions)) ∧
    (handleResultSelection sessions uid idx).2 = sessions := by
  refine ⟨?_, ?_, ?_⟩
  · rintro (h | ⟨s, hs, hl⟩)
    · simp [handleResultSelection, h]
    · simp [handleResultSelection, hs, hl]
  · intro s results hs hr hlen
    simp [handleResultSelection, hs, hr, hlen]
  · cases h : sessions uid with
    | none => simp [handleResultSelection, h]
    | some s =>
        cases hl : s.last_results with
        | none => simp [handleResultSelection, h, hl]
        | some results =>
            by_cases hle : results.length ≤ idx <;>
              simp [handleResultSelection, h, hl, hle]

/-- Witness for C8 at a concrete input: the empty-but-present result list
of user 0 makes selection 0 fail with result-not-found, sessions
untouched. -/
theorem C8_selection_guards_witness :
    handleResultSelection emptyResultsSessions 0 0 =
      (SelectOutcome.resultNotFound, emptyResultsSessions) :=
  (C8_selection_guards emptyResultsSessions 0 0).2.1 ⟨[], "", some []⟩ [] rfl rfl
    (by decide)

/-- Claim C9: a successful `handle_category` run replaces the user's
session with a dict that has no `last_results` key (line 123), so every
result selection issued before the next query — whatever results any
earlier category had produced — is rejected with the stale-session
error. -/
theorem C9_category_invalidates_results (sessions : Sessions) (uid : Nat)
    (loadOutcomes : List (Option (List Chunk))) (isE5 : Bool) (idx : Nat) :
    (handleCategory sessions uid true loadOutcomes isE5).1 = CategoryOutcome.ready ∧
    handleResultSelection (handleCategory sessions uid true loadOutcomes isE5).2 uid idx =
      (SelectOutcome.staleSession, (handleCategory sessions uid true loadOutcomes isE5).2) := by
  constructor
  · rfl
  · simp [handleCategory, handleResultSelection, setSession]

/-- Claim C10: for a user with an existing session, `handle_query` only
(re)writes that session's `last_results`; its `faiss_indexes` and
`query_prefix` are untouched and every other user's session is returned
verbatim. -/
theorem C10_query_mutates_only_last_results (sessions : Sessions) (uid : Nat)
    (raw : List Hit) (s : Session) (h : sessions uid = some s) :
    (handleQuery sessions uid raw).2 uid =
      some { s with last_results := some (rankHits raw) } ∧
    (∀ s', (handleQuery sessions uid raw).2 uid = some s' →
      s'.faiss_indexes = s.faiss_indexes ∧ s'.queryPref = s.queryPref) ∧
    (∀ v, v ≠ uid → (handleQuery sessions uid raw).2 v = sessions v) := by
  refine ⟨?_, ?_, ?_⟩
  · simp [handleQuery, h, setSession]
  · intro s' hs'
    simp only [handleQuery, h, setSession, if_pos] at hs'
    cases hs'
    constructor <;> rfl
  · intro v hv
    simp [handleQuery, h, setSession, hv]

/-- A concrete two-user session store for the C10 witness: user 0 has a
loaded session with a query prefix, user 1 has another session. -/
def twoUserSessions : Sessions :=
  fun v =>
    if v = 0 then some ⟨[[⟨"doc1_p1", "hello", []⟩]], "query: ", none⟩
    else if v = 1 then some ⟨[], "", some []⟩ else none

/-- Witness for C10 at a concrete input: querying as user 0 rewrites only
user 0's `last_results`; user 1's session is returned unchanged. -/
theorem C10_query_mutates_only_last_results_witness :
    (handleQuery twoUserSessions 0 []).2 0 =
      some { faiss_indexes := [[⟨"doc1_p1", "hello", []⟩]], queryPref := "query: ",
             last_results := some (rankHits []) } ∧
    (∀ s', (handleQuery twoUserSessions 0 []).2 0 = some s' →
      s'.faiss_indexes = [[⟨"doc1_p1", "hello", []⟩]] ∧ s'.queryPref = "query: ") ∧
    (∀ v, v ≠ 0 → (handleQuery twoUserSessions 0 []).2 v = twoUserSessions v) :=
  C10_query_mutates_only_last_results twoUserSessions 0 []
    ⟨[[⟨"doc1_p1", "hello", []⟩]], "query: ", none⟩ rfl
